import Mathlib

/-!
Verification of the entity/component widget runtime of the
'The Hundred Years War' repository.

Shallow embedding conventions:
* Machine floats (`f32`) are embedded as `ℚ`; the only operations the
  embedded code performs are `+`, `-`, `* / 2`, and comparisons, which the
  concrete inputs used here exercise exactly.
* `usize` is embedded as `ℕ`.
* `Vec<T>` is embedded as `List T`, `BTreeSet<usize>` as `Finset ℕ`
  (`pop_first` removes the minimum, `pop_last` the maximum).
* Fallible code returns `Except Error _`.
* Rust loops without a structural decrease are embedded with an explicit
  fuel argument; a result of `none` means the loop has not terminated
  within the given number of iterations.
-/

namespace War

/-- Errors of the UI subsystem (`src/ui/error.rs`), together with the
`ActionLoop` variant that `src/ui/action.rs` requires and the
`NoWidget` variant of `src/ui/widget.rs`. -/
inductive Error where
  | noSystem
  | noWidget
  | noComponent
  | borrowError
  | actionLoop
deriving DecidableEq

/-! ## The action scheduler (`src/ui/action.rs`)

An `Action` is embedded by its semantics: a trait object whose `execute`
receives a mutable `Scheduler` on which the only available public
operation is `schedule` (append).  An action's behaviour is therefore a
function `run : α → Except Error (List α)` returning either an error or
the list of actions it schedules, in the order it schedules them.
A `Scheduler`'s state is its queue of scheduled actions, a `List α`. -/

/-- `Scheduler::execute` (`src/ui/action.rs`, lines 65-69): runs every
action of the execution buffer, in order, against the other scheduler,
appending whatever each action schedules; the first error aborts. -/
def Scheduler.execute {α : Type} (run : α → Except Error (List α)) :
    List α → List α → Except Error (List α)
  | [], other => .ok other
  | a :: rest, other =>
    match run a with
    | .error e => .error e
    | .ok scheduled => Scheduler.execute run rest (other ++ scheduled)

/-- The loop body of `Actions::execute` (`src/ui/action.rs`, lines
114-126).  `runVar` embeds the local variable `run`, which the source
initialises to `0` and never modifies; `maxRuns` embeds the field
`max_runs`.  Each round swaps the buffers and executes the previous
active queue against a freshly cleared one.  `fuel` bounds the number
of loop iterations; `none` means the loop has not finished within
`fuel` iterations. -/
def Actions.executeAux {α : Type} (run : α → Except Error (List α))
    (runVar maxRuns : ℕ) : ℕ → List α → Option (Except Error Unit)
  | 0, _ => none
  | fuel + 1, active =>
    if runVar = maxRuns then some (.error .actionLoop)
    else if active.length = 0 then some (.ok ())
    else
      match Scheduler.execute run active [] with
      | .error e => some (.error e)
      | .ok next => Actions.executeAux run runVar maxRuns fuel next

/-- `Actions::execute`: the loop is entered with `run = 0`. -/
def Actions.execute {α : Type} (run : α → Except Error (List α))
    (maxRuns fuel : ℕ) (active : List α) : Option (Except Error Unit) :=
  Actions.executeAux run 0 maxRuns fuel active

/-- An action that reschedules itself on every execution, so that the
queue never drains. -/
def loopRun : Unit → Except Error (List Unit) := fun _ => .ok [()]

/-- A chain of dependent reschedules: action `n + 1` schedules action
`n`, action `0` schedules nothing.  The queue `[n]` is thus a chain of
`n + 1` dependent actions. -/
def chainRun : ℕ → Except Error (List ℕ)
  | 0 => .ok []
  | n + 1 => .ok [n]

lemma actions_executeAux_loopRun (maxRuns : ℕ) :
    ∀ fuel : ℕ, Actions.executeAux loopRun 0 (maxRuns + 1) fuel [()] = none := by
  intro fuel
  induction fuel with
  | zero => rfl
  | succ n ih =>
    simpa [Actions.executeAux, Scheduler.execute, loopRun, Nat.succ_ne_zero] using ih

/-- C1. The `run` counter of `Actions::execute` is initialised to `0` and
never incremented, so for every positive `max_runs` the guard
`run == self.max_runs` never fires: on a queue whose single action
reschedules itself forever the loop never terminates (it returns no
result within any number of iterations), instead of failing with
`ActionLoop` after `max_runs` rounds. -/
theorem C1_run_counter_never_advances (maxRuns fuel : ℕ) :
    Actions.execute loopRun (maxRuns + 1) fuel [()] = none := by
  simpa [Actions.execute] using actions_executeAux_loopRun maxRuns fuel

/-- C10. With `max_runs = 0` the round-limit check `run == max_runs`
succeeds on the very first loop iteration, before the empty-queue check,
so `Actions::execute` immediately returns the `ActionLoop` error — even
when no actions are scheduled at all. -/
theorem C10_zero_max_runs_immediate_action_loop (α : Type)
    (run : α → Except Error (List α)) (active : List α) (fuel : ℕ) :
    Actions.execute run 0 (fuel + 1) active = some (.error .actionLoop) := by
  simp [Actions.execute, Actions.executeAux]

lemma scheduler_execute_flatten {α : Type} (run : α → Except Error (List α))
    (sched : α → List α) :
    ∀ (buffer acc : List α), (∀ a ∈ buffer, run a = .ok (sched a)) →
      Scheduler.execute run buffer acc = .ok (acc ++ (buffer.map sched).flatten) := by
  intro buffer
  induction buffer with
  | nil => intro acc _; simp [Scheduler.execute]
  | cons a rest ih =>
    intro acc h
    have ha : run a = .ok (sched a) := h a (by simp)
    have hrest : ∀ b ∈ rest, run b = .ok (sched b) := fun b hb => h b (by simp [hb])
    simp only [Scheduler.execute, ha]
    rw [ih (acc ++ sched a) hrest]
    simp

lemma actions_executeAux_chain (maxRuns : ℕ) :
    ∀ n fuel : ℕ, Actions.executeAux chainRun 0 (maxRuns + 1) fuel [n] =
      if n + 2 ≤ fuel then some (.ok ()) else none := by
  intro n
  induction n with
  | zero =>
    intro fuel
    match fuel with
    | 0 => rfl
    | 1 =>
      simp [Actions.executeAux, Scheduler.execute, chainRun, Nat.succ_ne_zero]
    | (f + 2) =>
      simp [Actions.executeAux, Scheduler.execute, chainRun, Nat.succ_ne_zero]
  | succ m ih =>
    intro fuel
    match fuel with
    | 0 => rfl
    | (f + 1) =>
      have step : Actions.executeAux chainRun 0 (maxRuns + 1) (f + 1) [m + 1] =
          Actions.executeAux chainRun 0 (maxRuns + 1) f [m] := by
        simp [Actions.executeAux, Scheduler.execute, chainRun, Nat.succ_ne_zero]
      rw [step, ih f]
      have : m + 1 + 2 ≤ f + 1 ↔ m + 2 ≤ f := by omega
      simp [this]

/-- C3. Deferred execution of scheduled actions.  First conjunct: a round
executes exactly the actions present in its buffer, in order, and the
queue it hands to the next round is the concatenation, in FIFO order, of
the lists those actions scheduled — a newly scheduled action is never run
inline in the round that scheduled it.  Second conjunct: for the chain of
`n + 1` dependent reschedules starting from the queue `[n]` (action
`k + 1` schedules action `k`), `Actions::execute` succeeds precisely when
given at least `n + 2` loop iterations — `n + 1` rounds that each execute
one action, plus the final empty-queue check — so a chain of `N`
dependent reschedules settles in exactly `N` rounds and no fewer. -/
theorem C3_actions_settle_in_rounds :
    (∀ (α : Type) (run : α → Except Error (List α)) (sched : α → List α)
        (buffer acc : List α), (∀ a ∈ buffer, run a = .ok (sched a)) →
        Scheduler.execute run buffer acc = .ok (acc ++ (buffer.map sched).flatten))
    ∧ (∀ maxRuns n fuel : ℕ,
        Actions.execute chainRun (maxRuns + 1) fuel [n] =
          if n + 2 ≤ fuel then some (.ok ()) else none) := by
  constructor
  · intro α run sched buffer acc h
    exact scheduler_execute_flatten run sched buffer acc h
  · intro maxRuns n fuel
    simpa [Actions.execute] using actions_executeAux_chain maxRuns n fuel

/-- Witness for C3 at concrete inputs: a buffer of the two actions `2`
and `3` hands `[1, 2]` to the next round, and the chain queue `[3]`
(four dependent actions) settles with fuel `5 = 3 + 2`. -/
theorem C3_witness :
    Scheduler.execute chainRun [2, 3] [] = .ok [1, 2]
    ∧ Actions.execute chainRun 9 5 [3] = some (.ok ()) := by
  constructor
  · have h := C3_actions_settle_in_rounds.1 ℕ chainRun (fun a => [a - 1]) [2, 3] []
      (by intro a ha; fin_cases ha <;> rfl)
    simpa using h
  · have h := C3_actions_settle_in_rounds.2 8 3 5
    simpa using h

/-! ## The arena (`src/arena.rs`)

`Arena<T>` holds a growable buffer of optional values and an ordered set
of freed indices.  `BTreeSet::pop_first` removes the least element and
`BTreeSet::pop_last` the greatest. -/

structure Arena (T : Type) where
  buffer : List (Option T)
  free : Finset ℕ
deriving DecidableEq

/-- `Arena::new`: an empty buffer and an empty free set. -/
def Arena.new (T : Type) : Arena T := ⟨[], ∅⟩

/-- `Arena::insert` (lines 46-58): reuse the least freed id if one
exists, otherwise push at the end of the buffer.  Returns the updated
arena and the id. -/
def Arena.insert {T : Type} (a : Arena T) (object : T) : Arena T × ℕ :=
  if h : a.free.Nonempty then
    let id := a.free.min' h
    (⟨a.buffer.set id (some object), a.free.erase id⟩, id)
  else
    (⟨a.buffer ++ [some object], a.free⟩, a.buffer.length)

/-- `Arena::get` (lines 63-70). -/
def Arena.get {T : Type} (a : Arena T) (id : ℕ) : Option T :=
  match a.buffer[id]? with
  | some value => value
  | none => none

/-- `self.buffer[self.buffer.len() - 1].is_none()` guarded by
`self.buffer.len() != 0`: the loop condition of `recycle_id`. -/
def lastIsNone {T : Type} (l : List (Option T)) : Bool :=
  match l.getLast? with
  | some none => true
  | _ => false

/-- `BTreeSet::pop_last`: remove the greatest element, if any. -/
def popMax (s : Finset ℕ) : Finset ℕ :=
  if h : s.Nonempty then s.erase (s.max' h) else s

/-- The `while` loop of `Arena::recycle_id` (lines 106-109): while the
buffer is non-empty and ends in a hole, pop the buffer and pop the
greatest freed index.  Each iteration shortens the buffer by one, so the
initial buffer length is enough fuel for the loop to run to completion. -/
def Arena.recycleLoop {T : Type} :
    ℕ → List (Option T) → Finset ℕ → List (Option T) × Finset ℕ
  | 0, buf, free => (buf, free)
  | n + 1, buf, free =>
    if lastIsNone buf then Arena.recycleLoop n buf.dropLast (popMax free)
    else (buf, free)

/-- `Arena::recycle_id` (lines 103-113): if the freed id is the last
buffer position, pop it and cascade the truncation through any
now-trailing holes; otherwise record the id in the free set. -/
def Arena.recycle_id {T : Type} (a : Arena T) (id : ℕ) : Arena T :=
  if id = a.buffer.length - 1 then
    let start := a.buffer.dropLast
    let p := Arena.recycleLoop start.length start a.free
    ⟨p.1, p.2⟩
  else
    ⟨a.buffer, Insert.insert id a.free⟩

/-- `Arena::remove` (lines 87-98): swap the slot with `None`; if it held
a value, recycle the id and return the value. -/
def Arena.remove {T : Type} (a : Arena T) (id : ℕ) : Arena T × Option T :=
  if id < a.buffer.length then
    match a.buffer[id]? with
    | some (some v) => ((Arena.mk (a.buffer.set id none) a.free).recycle_id id, some v)
    | _ => (⟨a.buffer.set id none, a.free⟩, none)
  else (a, none)

/-- `impl PartialEq for Arena` (lines 143-152): two arenas are equal when
their buffers are equal; the free set is not compared. -/
def Arena.eq {T : Type} (a b : Arena T) : Prop := a.buffer = b.buffer

instance {T : Type} [DecidableEq T] (a b : Arena T) : Decidable (a.eq b) :=
  inferInstanceAs (Decidable (a.buffer = b.buffer))

/-- The arena states reachable from `Arena::new` by `insert` and
`remove`. -/
inductive Arena.Reachable {T : Type} : Arena T → Prop where
  | new : Arena.Reachable (Arena.new T)
  | insert (a : Arena T) (v : T) : Arena.Reachable a → Arena.Reachable (a.insert v).1
  | remove (a : Arena T) (id : ℕ) : Arena.Reachable a → Arena.Reachable (a.remove id).1

/-- Slot `i` currently holds a value. -/
def Arena.occupiedAt {T : Type} (a : Arena T) (i : ℕ) : Prop :=
  ∃ x, a.buffer[i]? = some (some x)

/-- The arena invariant: the free set is exactly the set of buffer
positions holding `None`, and the buffer never ends in a hole. -/
def Arena.WellFormed {T : Type} (a : Arena T) : Prop :=
  (∀ i, i ∈ a.free ↔ a.buffer[i]? = some none)
  ∧ a.buffer[a.buffer.length - 1]? ≠ some none

/-- A buffer with its trailing run of holes removed. -/
def dropTrailingNones {T : Type} (l : List (Option T)) : List (Option T) :=
  (l.reverse.dropWhile fun o => o.isNone).reverse

lemma lastIsNone_iff {T : Type} (l : List (Option T)) :
    lastIsNone l = true ↔ l[l.length - 1]? = some none := by
  rw [← List.getLast?_eq_getElem?]
  cases h : l.getLast? with
  | none => simp [lastIsNone, h]
  | some o => cases o <;> simp [lastIsNone, h]

lemma recycleLoop_wf {T : Type} :
    ∀ (n : ℕ) (buf : List (Option T)) (free : Finset ℕ),
      buf.length ≤ n →
      (∀ i, i ∈ free ↔ buf[i]? = some none) →
      (∀ i, i ∈ (Arena.recycleLoop n buf free).2 ↔
          (Arena.recycleLoop n buf free).1[i]? = some none)
      ∧ (Arena.recycleLoop n buf free).1[(Arena.recycleLoop n buf free).1.length - 1]?
          ≠ some none := by
  intro n
  induction n with
  | zero =>
    intro buf free hlen h1
    have hb : buf = [] := List.eq_nil_of_length_eq_zero (Nat.le_zero.mp hlen)
    subst hb
    refine ⟨h1, by simp [Arena.recycleLoop]⟩
  | succ n ih =>
    intro buf free hlen h1
    by_cases hL : lastIsNone buf
    · have hlast : buf[buf.length - 1]? = some none := (lastIsNone_iff buf).mp hL
      have hne : buf ≠ [] := by
        intro hb; subst hb; simp at hlast
      have hpos : 0 < buf.length := List.length_pos.mpr hne
      have hmem : buf.length - 1 ∈ free := (h1 _).mpr hlast
      have hfne : free.Nonempty := ⟨_, hmem⟩
      have hmax : free.max' hfne = buf.length - 1 := by
        apply le_antisymm
        · apply Finset.max'_le
          intro y hy
          have hy' : buf[y]? = some none := (h1 y).mp hy
          have : y < buf.length := (List.getElem?_eq_some_iff.mp hy').1
          omega
        · exact Finset.le_max' free _ hmem
      have hpop : popMax free = free.erase (buf.length - 1) := by
        simp [popMax, hfne, hmax]
      have h1' : ∀ i, i ∈ popMax free ↔ buf.dropLast[i]? = some none := by
        intro i
        rw [hpop, Finset.mem_erase, List.getElem?_dropLast]
        by_cases hi : i < buf.length - 1
        · simp only [hi, if_true]
          constructor
          · rintro ⟨_, hif⟩; exact (h1 i).mp hif
          · intro hbi; exact ⟨by omega, (h1 i).mpr hbi⟩
        · simp only [hi, if_false]
          constructor
          · rintro ⟨hne', hif⟩
            have hbi := (h1 i).mp hif
            have : i < buf.length := (List.getElem?_eq_some_iff.mp hbi).1
            omega
          · intro h; exact absurd h (by simp)
      have hlen' : buf.dropLast.length ≤ n := by
        rw [List.length_dropLast]; omega
      have hstep : Arena.recycleLoop (n + 1) buf free =
          Arena.recycleLoop n buf.dropLast (popMax free) := by
        simp [Arena.recycleLoop, hL]
      rw [hstep]
      exact ih buf.dropLast (popMax free) hlen' h1'
    · have hstep : Arena.recycleLoop (n + 1) buf free = (buf, free) := by
        simp [Arena.recycleLoop, hL]
      rw [hstep]
      refine ⟨h1, ?_⟩
      intro hc
      exact hL ((lastIsNone_iff buf).mpr hc)

lemma wf_new (T : Type) : (Arena.new T).WellFormed := by
  constructor
  · intro i; simp [Arena.new]
  · simp [Arena.new]

lemma wf_insert {T : Type} (a : Arena T) (v : T) (h : a.WellFormed) :
    ((a.insert v).1).WellFormed := by
  obtain ⟨h1, h2⟩ := h
  by_cases hfree : a.free.Nonempty
  · have hmem : a.free.min' hfree ∈ a.free := a.free.min'_mem hfree
    have hhole : a.buffer[a.free.min' hfree]? = some none := (h1 _).mp hmem
    have hlt : a.free.min' hfree < a.buffer.length :=
      (List.getElem?_eq_some_iff.mp hhole).1
    simp only [Arena.insert, dif_pos hfree]
    constructor
    · intro i
      rw [Finset.mem_erase]
      rw [List.getElem?_set]
      by_cases hi : a.free.min' hfree = i
      · subst hi
        simp [hlt]
      · simp only [hi, if_false]
        constructor
        · rintro ⟨_, hif⟩; exact (h1 i).mp hif
        · intro hbi; exact ⟨fun hcontra => hi hcontra.symm, (h1 i).mpr hbi⟩
    · rw [List.length_set, List.getElem?_set]
      by_cases hi : a.free.min' hfree = a.buffer.length - 1
      · simp [hi, hlt.trans_eq (by omega : a.buffer.length = a.buffer.length), hi ▸ hlt]
      · simpa [hi] using h2
  · simp only [Arena.insert, dif_neg hfree]
    have hfe : a.free = ∅ := Finset.not_nonempty_iff_eq_empty.mp hfree
    constructor
    · intro i
      simp only [hfe, Finset.not_mem_empty, false_iff]
      intro hc
      rcases lt_trichotomy i a.buffer.length with hi | hi | hi
      · rw [List.getElem?_append_left hi] at hc
        have : i ∈ a.free := (h1 i).mpr hc
        simp [hfe] at this
      · subst hi
        rw [List.getElem?_concat_length] at hc
        exact Option.noConfusion (Option.some.inj hc)
      · rw [List.getElem?_eq_none (by simp; omega)] at hc
        exact Option.noConfusion hc
    · have : (a.buffer ++ [some v]).length - 1 = a.buffer.length := by simp
      rw [this, List.getElem?_concat_length]
      intro hc
      exact Option.noConfusion (Option.some.inj hc)

lemma wf_remove {T : Type} (a : Arena T) (id : ℕ) (h : a.WellFormed) :
    ((a.remove id).1).WellFormed := by
  obtain ⟨h1, h2⟩ := h
  by_cases hlt : id < a.buffer.length
  · have hsome : a.buffer[id]? = some (a.buffer[id]) := List.getElem?_eq_getElem hlt
    cases hx : a.buffer[id] with
    | none =>
      have hnone : a.buffer[id]? = some none := by rw [hsome, hx]
      have hres : (a.remove id).1 = ⟨a.buffer.set id none, a.free⟩ := by
        simp [Arena.remove, hlt, hnone]
      rw [hres]
      constructor
      · intro i
        simp only
        rw [List.getElem?_set]
        by_cases hi : id = i
        · subst hi; simp [hlt, (h1 id).mpr hnone]
        · simp only [hi, if_false]; exact h1 i
      · have hid : id ≠ a.buffer.length - 1 := by
          intro hcontra
          rw [hcontra] at hnone
          exact h2 hnone
        simp only [List.length_set]
        rw [List.getElem?_set_ne hid]
        exact h2
    | some v =>
      have hval : a.buffer[id]? = some (some v) := by rw [hsome, hx]
      have hres : (a.remove id).1 = (Arena.mk (a.buffer.set id none) a.free).recycle_id id := by
        simp [Arena.remove, hlt, hval]
      rw [hres]
      by_cases hid : id = a.buffer.length - 1
      · have hrec : (Arena.mk (a.buffer.set id none) a.free).recycle_id id =
            ⟨(Arena.recycleLoop (a.buffer.set id none).dropLast.length
                (a.buffer.set id none).dropLast a.free).1,
             (Arena.recycleLoop (a.buffer.set id none).dropLast.length
                (a.buffer.set id none).dropLast a.free).2⟩ := by
          simp [Arena.recycle_id, List.length_set, hid]
        rw [hrec]
        have h1' : ∀ i, i ∈ a.free ↔ (a.buffer.set id none).dropLast[i]? = some none := by
          intro i
          rw [List.getElem?_dropLast, List.length_set]
          by_cases hi : i < a.buffer.length - 1
          · simp only [hi, if_true]
            rw [List.getElem?_set_ne (by omega)]
            exact h1 i
          · simp only [hi, if_false]
            constructor
            · intro hmem
              have hbi := (h1 i).mp hmem
              have hilen : i < a.buffer.length := (List.getElem?_eq_some_iff.mp hbi).1
              have : i = id := by omega
              rw [this, hval] at hbi
              exact absurd (Option.some.inj hbi) (by simp)
            · intro hc; exact absurd hc (by simp)
        have := recycleLoop_wf (T := T) (a.buffer.set id none).dropLast.length
          (a.buffer.set id none).dropLast a.free le_rfl h1'
        exact ⟨this.1, this.2⟩
      · have hrec : (Arena.mk (a.buffer.set id none) a.free).recycle_id id =
            ⟨a.buffer.set id none, Insert.insert id a.free⟩ := by
          simp [Arena.recycle_id, List.length_set, hid]
        rw [hrec]
        constructor
        · intro i
          simp only [Finset.mem_insert]
          rw [List.getElem?_set]
          by_cases hi : id = i
          · subst hi; simp [hlt]
          · simp only [hi, if_false]
            constructor
            · rintro (rfl | hmem)
              · exact absurd rfl hi
              · exact (h1 i).mp hmem
            · intro hbi; exact Or.inr ((h1 i).mpr hbi)
        · simp only [List.length_set]
          rw [List.getElem?_set_ne hid]
          exact h2
  · have hres : (a.remove id).1 = a := by simp [Arena.remove, hlt]
    rw [hres]; exact ⟨h1, h2⟩

lemma reachable_wf {T : Type} {a : Arena T} (h : a.Reachable) : a.WellFormed := by
  induction h with
  | new => exact wf_new T
  | insert a v _ ih => exact wf_insert a v ih
  | remove a id _ ih => exact wf_remove a id ih

lemma insert_id_min {T : Type} (a : Arena T) (v : T) (h : a.free.Nonempty) :
    (a.insert v).2 = a.free.min' h := by
  simp [Arena.insert, h]

lemma insert_id_len {T : Type} (a : Arena T) (v : T) (h : ¬a.free.Nonempty) :
    (a.insert v).2 = a.buffer.length := by
  simp [Arena.insert, h]

lemma insert_minimal {T : Type} (a : Arena T) (v : T) (hwf : a.WellFormed) :
    ¬ a.occupiedAt (a.insert v).2 ∧ ∀ j, j < (a.insert v).2 → a.occupiedAt j := by
  obtain ⟨h1, _⟩ := hwf
  by_cases hfree : a.free.Nonempty
  · rw [insert_id_min a v hfree]
    have hmem : a.free.min' hfree ∈ a.free := a.free.min'_mem hfree
    have hhole : a.buffer[a.free.min' hfree]? = some none := (h1 _).mp hmem
    have hlt : a.free.min' hfree < a.buffer.length :=
      (List.getElem?_eq_some_iff.mp hhole).1
    constructor
    · rintro ⟨x, hx⟩
      rw [hhole] at hx
      exact Option.noConfusion (Option.some.inj hx)
    · intro j hj
      have hjlt : j < a.buffer.length := hj.trans hlt
      have hjv : a.buffer[j]? = some (a.buffer[j]) := List.getElem?_eq_getElem hjlt
      cases hb : a.buffer[j] with
      | none =>
        have : j ∈ a.free := (h1 j).mpr (by rw [hjv, hb])
        have := a.free.min'_le j this
        omega
      | some x => exact ⟨x, by rw [hjv, hb]⟩
  · rw [insert_id_len a v hfree]
    constructor
    · rintro ⟨x, hx⟩
      rw [List.getElem?_eq_none le_rfl] at hx
      exact Option.noConfusion hx
    · intro j hj
      have hjv : a.buffer[j]? = some (a.buffer[j]) := List.getElem?_eq_getElem hj
      cases hb : a.buffer[j] with
      | none =>
        have : j ∈ a.free := (h1 j).mpr (by rw [hjv, hb])
        exact absurd ⟨j, this⟩ hfree
      | some x => exact ⟨x, by rw [hjv, hb]⟩

lemma dropTrailingNones_eq_self {T : Type} (l : List (Option T))
    (h : l[l.length - 1]? ≠ some none) : dropTrailingNones l = l := by
  unfold dropTrailingNones
  cases hr : l.reverse with
  | nil =>
    have : l = [] := by simpa using congrArg List.reverse hr
    simp [this]
  | cons x xs =>
    have hx : l.getLast? = some x := by
      rw [← List.head?_reverse, hr]; rfl
    have hlast : l[l.length - 1]? = some x := by
      rw [← List.getLast?_eq_getElem?, hx]
    cases x with
    | none => exact absurd hlast h
    | some y =>
      have hdw : List.dropWhile (fun o => o.isNone) (some y :: xs) = some y :: xs := by
        simp [List.dropWhile_cons]
      rw [hdw, ← hr, List.reverse_reverse]

/-- The arena of the worked example: insert 3, 4, 5, 6, 7 (ids 0-4),
then remove ids 1, 3 and 4. -/
def arenaC7ex : Arena ℕ :=
  (((((((((Arena.new ℕ).insert 3).1.insert 4).1.insert 5).1.insert 6).1.insert
    7).1.remove 1).1.remove 3).1.remove 4).1

/-- The arena of the source's own `arena_eq` test: insert 3, 4, 5, then
remove id 1. -/
def arenaC8b : Arena ℕ :=
  ((((Arena.new ℕ).insert 3).1.insert 4).1.insert 5).1.remove 1 |>.1

lemma arenaC7ex_reachable : arenaC7ex.Reachable := by
  unfold arenaC7ex
  exact .remove _ 4 (.remove _ 3 (.remove _ 1 (.insert _ 7 (.insert _ 6
    (.insert _ 5 (.insert _ 4 (.insert _ 3 .new)))))))

lemma arenaC8b_reachable : arenaC8b.Reachable := by
  unfold arenaC8b
  exact .remove _ 1 (.insert _ 5 (.insert _ 4 (.insert _ 3 .new)))

/-- C9. Every arena reachable from `Arena::new` by `insert`/`remove` is
well-formed: the free set holds exactly the indices below the buffer
length whose slot is `None`, and a non-empty buffer never ends in a hole
(its last slot is occupied); moreover `insert` and `remove` each
preserve the invariant. -/
theorem C9_arena_invariant :
    (∀ (T : Type) (a : Arena T), a.Reachable →
      (∀ i, i ∈ a.free ↔ (i < a.buffer.length ∧ a.buffer[i]? = some none))
      ∧ (a.buffer ≠ [] → ∃ v, a.buffer.getLast? = some (some v)))
    ∧ (∀ (T : Type) (a : Arena T) (v : T), a.WellFormed → ((a.insert v).1).WellFormed)
    ∧ (∀ (T : Type) (a : Arena T) (id : ℕ), a.WellFormed → ((a.remove id).1).WellFormed) := by
  refine ⟨?_, fun T a v h => wf_insert a v h, fun T a id h => wf_remove a id h⟩
  intro T a ha
  obtain ⟨h1, h2⟩ := reachable_wf ha
  constructor
  · intro i
    rw [h1 i]
    constructor
    · intro h; exact ⟨(List.getElem?_eq_some_iff.mp h).1, h⟩
    · intro h; exact h.2
  · intro hne
    have hpos : 0 < a.buffer.length := List.length_pos.mpr hne
    have hlt : a.buffer.length - 1 < a.buffer.length := by omega
    have hv : a.buffer[a.buffer.length - 1]? =
        some (a.buffer[a.buffer.length - 1]) := List.getElem?_eq_getElem hlt
    cases hb : a.buffer[a.buffer.length - 1] with
    | none => exact absurd (by rw [hv, hb]) h2
    | some v =>
      exact ⟨v, by rw [List.getLast?_eq_getElem?, hv, hb]⟩

/-- Witness for C9 at a concrete reachable arena. -/
theorem C9_witness :
    (∀ i, i ∈ arenaC7ex.free ↔
      (i < arenaC7ex.buffer.length ∧ arenaC7ex.buffer[i]? = some none))
    ∧ (arenaC7ex.buffer ≠ [] → ∃ v, arenaC7ex.buffer.getLast? = some (some v)) :=
  C9_arena_invariant.1 ℕ arenaC7ex arenaC7ex_reachable

/-- C7 counterexample.  After inserting 3, 4, 5, 6, 7 and removing ids
1, 3 and 4, the buffer holds 3 entries of which only 2 are occupied
(values 3 and 5, with the hole at index 1), not "exactly 3 occupied
entries" as the claim's example states. -/
theorem C7_counterexample :
    arenaC7ex.buffer.countP Option.isSome = 2
    ∧ ¬ arenaC7ex.buffer.countP Option.isSome = 3 := by decide

/-- C7 as amended.  For every reachable arena, `insert` (which never
fails: it is total) returns the smallest id not currently occupied —
the least freed id when a slot is free (the id characterisations below),
otherwise the current buffer length.  In the worked example the final
buffer holds exactly 3 entries, of which 2 are occupied, with the hole
at index 1 and no trailing holes: removing id 4 (the highest occupied
slot) truncated the buffer and cascaded through the freed id 3. -/
theorem C7_insert_smallest_id :
    (∀ (T : Type) (a : Arena T) (v : T), a.Reachable →
      (¬ a.occupiedAt (a.insert v).2 ∧ ∀ j, j < (a.insert v).2 → a.occupiedAt j)
      ∧ (∀ h : a.free.Nonempty, (a.insert v).2 = a.free.min' h)
      ∧ (¬ a.free.Nonempty → (a.insert v).2 = a.buffer.length))
    ∧ arenaC7ex.buffer = [some 3, none, some 5]
    ∧ arenaC7ex.free = {1}
    ∧ arenaC7ex.buffer.length = 3
    ∧ arenaC7ex.buffer.countP Option.isSome = 2
    ∧ lastIsNone arenaC7ex.buffer = false := by
  refine ⟨?_, by decide, by decide, by decide, by decide, by decide⟩
  intro T a v ha
  exact ⟨insert_minimal a v (reachable_wf ha),
    fun h => insert_id_min a v h, fun h => insert_id_len a v h⟩

/-- Witness for C7 at a concrete reachable arena: inserting into the
example arena reuses the freed id 1, which is indeed unoccupied. -/
theorem C7_witness :
    ¬ arenaC7ex.occupiedAt (arenaC7ex.insert 9).2 ∧ (arenaC7ex.insert 9).2 = 1 := by
  have h := C7_insert_smallest_id.1 ℕ arenaC7ex 9 arenaC7ex_reachable
  exact ⟨h.1.1, by decide⟩

/-- C8. For reachable arenas, `PartialEq::eq` (buffer comparison) holds
iff the buffers agree up to a trailing run of free slots, and it is
symmetric.  Reachable arenas never carry trailing holes (C9), so
dropping the trailing run of `None`s is the identity on their buffers. -/
theorem C8_eq_up_to_trailing_holes :
    ∀ (T : Type) (a b : Arena T), a.Reachable → b.Reachable →
      (a.eq b ↔ dropTrailingNones a.buffer = dropTrailingNones b.buffer)
      ∧ (a.eq b ↔ b.eq a) := by
  intro T a b ha hb
  have hda : dropTrailingNones a.buffer = a.buffer :=
    dropTrailingNones_eq_self a.buffer (reachable_wf ha).2
  have hdb : dropTrailingNones b.buffer = b.buffer :=
    dropTrailingNones_eq_self b.buffer (reachable_wf hb).2
  constructor
  · rw [hda, hdb]; exact Iff.rfl
  · unfold Arena.eq; exact eq_comm

/-- Witness for C8: the example arena (insert 3,4,5,6,7; remove 1,3,4)
equals the source test's arena (insert 3,4,5; remove 1). -/
theorem C8_witness :
    (arenaC7ex.eq arenaC8b ↔
      dropTrailingNones arenaC7ex.buffer = dropTrailingNones arenaC8b.buffer)
    ∧ arenaC7ex.eq arenaC8b ∧ arenaC8b.eq arenaC7ex := by
  have h := C8_eq_up_to_trailing_holes ℕ arenaC7ex arenaC8b
    arenaC7ex_reachable arenaC8b_reachable
  exact ⟨h.1, by decide, by decide⟩

/-! ## Geometry (`src/position.rs`, `src/dimension.rs`, `src/bounds.rs`)

`f32` coordinates are embedded as `ℚ`. -/

structure Position where
  x : ℚ
  y : ℚ
deriving DecidableEq

/-- `Position::new`. -/
def Position.new (x y : ℚ) : Position := ⟨x, y⟩

structure Dimension where
  width : ℚ
  height : ℚ
deriving DecidableEq

/-- `Dimension::new`: width and height are made non-negative. -/
def Dimension.new (width height : ℚ) : Dimension :=
  ⟨if width < 0 then -width else width, if height < 0 then -height else height⟩

/-- `Dimension::default`: zero size. -/
def Dimension.default : Dimension := ⟨0, 0⟩

/-- Modelled from the spec: `Dimension::combine_horizontal` is called by
`Container::update_after_resize` but is absent from the sources.  Per
the spec (§4.7) a row's extent adds the widths of its columns and its
height is the maximum of their heights. -/
def Dimension.combine_horizontal (a b : Dimension) : Dimension :=
  ⟨a.width + b.width, max a.height b.height⟩

/-- Modelled from the spec: `Dimension::combine_vertical` is called by
`Container::update_after_resize` but is absent from the sources.  Rows
stack top-to-bottom: heights add and the width is the maximum. -/
def Dimension.combine_vertical (a b : Dimension) : Dimension :=
  ⟨max a.width b.width, a.height + b.height⟩

structure Bounds where
  left : ℚ
  right : ℚ
  bottom : ℚ
  top : ℚ
deriving DecidableEq

/-- `Bounds::new` (`src/bounds.rs`, lines 45-62): normalises the
arguments so that `left ≤ right` and `bottom ≤ top`. -/
def Bounds.new (x1 x2 y1 y2 : ℚ) : Bounds :=
  ⟨if x1 > x2 then x2 else x1, if x1 > x2 then x1 else x2,
   if y1 > y2 then y2 else y1, if y1 > y2 then y1 else y2⟩

/-- Modelled from the spec: `Bounds::contains_position` is called by
`ClickHandler::handle_event` and `CheckMouseOverHandler::handle_event`
but is absent from the sources.  Per the spec the handlers perform
"hit-testing against the Spatial's bounds", a normalised rectangle
with lower/upper x and lower/upper y; embedded as closed-rectangle
membership. -/
def Bounds.contains_position (b : Bounds) (p : Position) : Bool :=
  decide (b.left ≤ p.x ∧ p.x ≤ b.right ∧ b.bottom ≤ p.y ∧ p.y ≤ b.top)

/-! ## Mouse events and the hover target (`src/ui/mouse.rs`) -/

inductive MouseButton where
  | left
  | right
deriving DecidableEq

inductive MouseButtonEventKind where
  | pressed
  | released
deriving DecidableEq

structure MouseButtonEvent where
  kind : MouseButtonEventKind
  button : MouseButton
  position : Position
deriving DecidableEq

structure MouseMotionEvent where
  position : Position
deriving DecidableEq

inductive MouseOverEventKind where
  | entered
  | exited
deriving DecidableEq

structure MouseOverEvent where
  kind : MouseOverEventKind
deriving DecidableEq

/-- `MouseOverTarget` (`src/ui/mouse.rs`, lines 139-148): the `handlers`
registry is represented by the list of events the target emits through
`handlers.notify` (one `notify` call per emitted event); only the
`within` flag is state. -/
structure MouseOverTarget where
  within : Bool
deriving DecidableEq

/-- `MouseOverTarget::new` (lines 154-159): `within` starts `false`. -/
def MouseOverTarget.new : MouseOverTarget := ⟨false⟩

/-- `CheckMouseOverHandler::handle_event` (lines 191-206): hit-test the
motion position against the widget's Spatial bounds, emit `Exited` on an
inside-to-outside transition, `Entered` on an outside-to-inside
transition, nothing otherwise, then store the new `within`.  Returns the
updated target and the events passed to `handlers.notify`. -/
def CheckMouseOverHandler.handle_event (bounds : Bounds)
    (event : MouseMotionEvent) (t : MouseOverTarget) :
    MouseOverTarget × List MouseOverEvent :=
  let within := bounds.contains_position event.position
  let old_within := t.within
  if old_within && !within then (⟨within⟩, [⟨.exited⟩])
  else if !old_within && within then (⟨within⟩, [⟨.entered⟩])
  else (⟨within⟩, [])

/-- Feeding a sequence of motion events to the handler, one per input
tick, collecting the emitted hover events in order. -/
def processMouseMotionEvents (bounds : Bounds) :
    MouseOverTarget → List MouseMotionEvent → MouseOverTarget × List MouseOverEvent
  | t, [] => (t, [])
  | t, e :: rest =>
    let r := CheckMouseOverHandler.handle_event bounds e t
    let rr := processMouseMotionEvents bounds r.1 rest
    (rr.1, r.2 ++ rr.2)

/-- The edge transitions of a boolean sample sequence, starting from a
previous state: one `entered` per false-to-true edge, one `exited` per
true-to-false edge, nothing for a sample equal to its predecessor. -/
def hoverEdges : Bool → List Bool → List MouseOverEventKind
  | _, [] => []
  | prev, b :: bs =>
    (if prev = b then [] else if b then [.entered] else [.exited]) ++ hoverEdges b bs

lemma handle_event_within (bounds : Bounds) (e : MouseMotionEvent)
    (t : MouseOverTarget) :
    (CheckMouseOverHandler.handle_event bounds e t).1.within =
      bounds.contains_position e.position := by
  cases ht : t.within <;> cases hw : bounds.contains_position e.position <;>
    simp [CheckMouseOverHandler.handle_event, ht, hw]

lemma processMouseMotion_edges (bounds : Bounds) :
    ∀ (evs : List MouseMotionEvent) (t : MouseOverTarget),
      (processMouseMotionEvents bounds t evs).2.map MouseOverEvent.kind =
        hoverEdges t.within (evs.map fun e => bounds.contains_position e.position) := by
  intro evs
  induction evs with
  | nil => intro t; rfl
  | cons e rest ih =>
    intro t
    cases ht : t.within <;> cases hw : bounds.contains_position e.position <;>
      simp [processMouseMotionEvents, CheckMouseOverHandler.handle_event, ht, hw,
        hoverEdges, ih]

lemma hoverEdges_all_true : ∀ bs : List Bool, (∀ b ∈ bs, b = true) →
    hoverEdges true bs = [] := by
  intro bs
  induction bs with
  | nil => intro _; rfl
  | cons b rest ih =>
    intro h
    have hb : b = true := h b (by simp)
    subst hb
    simpa [hoverEdges] using ih fun x hx => h x (by simp [hx])

lemma hoverEdges_enter_once : ∀ bs : List Bool, (∀ b ∈ bs, b = true) → bs ≠ [] →
    hoverEdges false bs = [.entered] := by
  intro bs
  induction bs with
  | nil => intro _ h; exact absurd rfl h
  | cons b rest _ =>
    intro h _
    have hb : b = true := h b (by simp)
    subst hb
    simpa [hoverEdges] using hoverEdges_all_true rest fun x hx => h x (by simp [hx])

/-- C6. The hover target is a two-state machine starting Outside
(`within = false`).  Per step: the stored state becomes the current
hit-test result, an `Exited` event is emitted exactly on an
inside-to-outside transition, an `Entered` exactly on an
outside-to-inside transition, and nothing when the sample stays on the
same side.  Over any motion sequence the emitted hover events are
exactly the edge transitions of the hit-test samples, and a non-empty
run of all-inside samples emits exactly one `Entered` and nothing
else. -/
theorem C6_hover_edge_triggering :
    (MouseOverTarget.new.within = false)
    ∧ (∀ (bounds : Bounds) (e : MouseMotionEvent) (t : MouseOverTarget),
        (CheckMouseOverHandler.handle_event bounds e t).1.within =
          bounds.contains_position e.position
        ∧ (CheckMouseOverHandler.handle_event bounds e t).2 =
            (if t.within = true ∧ bounds.contains_position e.position = false
              then [⟨.exited⟩]
              else if t.within = false ∧ bounds.contains_position e.position = true
                then [⟨.entered⟩] else []))
    ∧ (∀ (bounds : Bounds) (evs : List MouseMotionEvent),
        (processMouseMotionEvents bounds MouseOverTarget.new evs).2.map
            MouseOverEvent.kind =
          hoverEdges false (evs.map fun e => bounds.contains_position e.position))
    ∧ (∀ (bounds : Bounds) (evs : List MouseMotionEvent),
        (∀ e ∈ evs, bounds.contains_position e.position = true) → evs ≠ [] →
        (processMouseMotionEvents bounds MouseOverTarget.new evs).2.map
            MouseOverEvent.kind = [.entered]) := by
  refine ⟨rfl, ?_, ?_, ?_⟩
  · intro bounds e t
    refine ⟨handle_event_within bounds e t, ?_⟩
    cases ht : t.within <;> cases hw : bounds.contains_position e.position <;>
      simp [CheckMouseOverHandler.handle_event, ht, hw]
  · intro bounds evs
    simpa using processMouseMotion_edges bounds evs MouseOverTarget.new
  · intro bounds evs hall hne
    rw [processMouseMotion_edges bounds evs MouseOverTarget.new]
    have : MouseOverTarget.new.within = false := rfl
    rw [this]
    apply hoverEdges_enter_once
    · intro b hb
      obtain ⟨e, he, rfl⟩ := List.mem_map.mp hb
      exact hall e he
    · simpa using hne

/-- Witness for C6: two motion samples inside the box `[0,10] × [0,10]`
emit exactly one `Entered`. -/
theorem C6_witness :
    (processMouseMotionEvents (Bounds.new 0 10 0 10) MouseOverTarget.new
      [⟨⟨1, 1⟩⟩, ⟨⟨2, 2⟩⟩]).2.map MouseOverEvent.kind = [.entered] :=
  C6_hover_edge_triggering.2.2.2 (Bounds.new 0 10 0 10) [⟨⟨1, 1⟩⟩, ⟨⟨2, 2⟩⟩]
    (by decide) (by decide)

/-! ## The button (`src/ui/button.rs`) -/

structure ButtonEvent where
  source_id : ℕ
deriving DecidableEq

/-- `Button` (`src/ui/button.rs`, lines 26-46): the `handlers` registry
is represented by the list of `ButtonEvent`s the button emits through
`handlers.notify`. -/
structure Button where
  pressed : Bool
  highlighted : Bool
  label : String
deriving DecidableEq

/-- `Button::new` (lines 52-59).  Note that the source initialises
`pressed` to `true`. -/
def Button.new (label : String) : Button :=
  { pressed := true, highlighted := false, label := label }

/-- `ClickHandler::handle_event` (lines 109-129): on `Pressed`, arm
`pressed` if the press position is inside the widget's Spatial bounds;
on `Released`, if `pressed` is armed, clear it and notify the button's
click handlers with one `ButtonEvent` carrying the widget id — the
release position is not inspected.  Returns the updated button and the
events passed to `handlers.notify`. -/
def ClickHandler.handle_event (bounds : Bounds) (widget_id : ℕ)
    (event : MouseButtonEvent) (b : Button) : Button × List ButtonEvent :=
  match event.kind with
  | .pressed =>
    if bounds.contains_position event.position then ({ b with pressed := true }, [])
    else (b, [])
  | .released =>
    if b.pressed then ({ b with pressed := false }, [⟨widget_id⟩])
    else (b, [])

/-- Feeding a sequence of mouse button events to the click handler, one
per input tick, collecting the emitted `ButtonEvent`s in order. -/
def processMouseButtonEvents (bounds : Bounds) (widget_id : ℕ) :
    Button → List MouseButtonEvent → Button × List ButtonEvent
  | b, [] => (b, [])
  | b, e :: rest =>
    let r := ClickHandler.handle_event bounds widget_id e b
    let rr := processMouseButtonEvents bounds widget_id r.1 rest
    (rr.1, r.2 ++ rr.2)

/-- C2 counterexample, at the box `[0,10] × [0,10]` and widget id 7.
First conjunct: the very first event after decoration, a `Released` with
no prior `Pressed`, emits a `ButtonEvent` (because `Button::new` arms
`pressed`); the claim says it emits none.  Second conjunct: a `Pressed`
inside the bounds followed by a `Released` outside them also emits a
`ButtonEvent` (the release position is never checked); the claim says it
emits none. -/
theorem C2_counterexample :
    (processMouseButtonEvents (Bounds.new 0 10 0 10) 7 (Button.new "ok")
      [⟨.released, .left, ⟨5, 5⟩⟩]).2 = [⟨7⟩]
    ∧ (processMouseButtonEvents (Bounds.new 0 10 0 10) 7 (Button.new "ok")
      [⟨.pressed, .left, ⟨5, 5⟩⟩, ⟨.released, .left, ⟨20, 20⟩⟩]).2 = [⟨7⟩] := by
  decide

/-- C2 as amended.  A `Pressed` inside the bounds arms `pressed` (and a
`Pressed` outside leaves the button unchanged); a `Released` while armed
clears `pressed` and notifies the click handlers with exactly one
`ButtonEvent` carrying the widget id, regardless of the release
position; a `Released` while unarmed emits nothing.  However
`Button::new` initialises `pressed := true`, so the widget starts armed
and the first `Released` after decoration emits one `ButtonEvent` even
with no prior `Pressed`. -/
theorem C2_click_semantics :
    (∀ (bounds : Bounds) (wid : ℕ) (b : Button) (btn : MouseButton) (p : Position),
      (bounds.contains_position p = true →
        ClickHandler.handle_event bounds wid ⟨.pressed, btn, p⟩ b =
          ({ b with pressed := true }, []))
      ∧ (bounds.contains_position p = false →
        ClickHandler.handle_event bounds wid ⟨.pressed, btn, p⟩ b = (b, []))
      ∧ (b.pressed = true →
        ClickHandler.handle_event bounds wid ⟨.released, btn, p⟩ b =
          ({ b with pressed := false }, [⟨wid⟩]))
      ∧ (b.pressed = false →
        ClickHandler.handle_event bounds wid ⟨.released, btn, p⟩ b = (b, [])))
    ∧ (∀ label, (Button.new label).pressed = true)
    ∧ (∀ (bounds : Bounds) (wid : ℕ) (b : Button) (btn btn' : MouseButton)
        (p q : Position), bounds.contains_position p = true →
        (processMouseButtonEvents bounds wid b
          [⟨.pressed, btn, p⟩, ⟨.released, btn', q⟩]).2 = [⟨wid⟩]) := by
  refine ⟨?_, fun _ => rfl, ?_⟩
  · intro bounds wid b btn p
    refine ⟨?_, ?_, ?_, ?_⟩ <;> intro h <;>
      simp [ClickHandler.handle_event, h]
  · intro bounds wid b btn btn' p q hp
    simp [processMouseButtonEvents, ClickHandler.handle_event, hp]

/-- Witness for C2 at concrete inputs: a press at (5,5) inside
`[0,10] × [0,10]` followed by a release at (20,20) emits exactly one
`ButtonEvent` for widget 7. -/
theorem C2_witness :
    (processMouseButtonEvents (Bounds.new 0 10 0 10) 7 (Button.new "ok")
      [⟨.pressed, .left, ⟨5, 5⟩⟩, ⟨.released, .right, ⟨20, 20⟩⟩]).2 = [⟨7⟩] :=
  C2_click_semantics.2.2 (Bounds.new 0 10 0 10) 7 (Button.new "ok") .left .right
    ⟨5, 5⟩ ⟨20, 20⟩ (by decide)

/-! ## Shapes and the deferred notification queue
(`src/ui/event.rs`, `src/ui/shape.rs`, `src/ui/system.rs`) -/

/-- `ComponentEvent` (`src/ui/event.rs`, lines 116-132): carries the id
of the component that triggered it (`MovedEvent` and `ResizedEvent` are
aliases of it). -/
structure ComponentEvent where
  id : ℕ
deriving DecidableEq

/-- `NotifyAction` (`src/ui/event.rs`, lines 92-111): the deferred
notification of one listener with one event, scheduled onto the
`System` queue by `Listeners::try_schedule_notify`; the listener is
identified by its registration id. -/
structure NotifyAction where
  listener : ℕ
  event : ComponentEvent
deriving DecidableEq

/-- `Listeners::try_schedule_notify` (`src/ui/event.rs`, lines 64-72):
push one `NotifyAction` per registered listener onto the system queue;
the listeners themselves are not invoked.  The registry is represented
by the list of registered listener ids in arena order. -/
def Listeners.try_schedule_notify (listeners : List ℕ) (event : ComponentEvent)
    (queue : List NotifyAction) : List NotifyAction :=
  queue ++ listeners.map fun l => ⟨l, event⟩

/-- `Shape` (`src/ui/shape.rs`, lines 29-59): position, preferred size
and the move/resize listener registries. -/
structure Shape where
  id : ℕ
  position : Position
  preferred_size : Dimension
  on_move : List ℕ
  on_resize : List ℕ
deriving DecidableEq

/-- `Shape::set_position` (lines 86-89): the position field is updated
immediately; what is deferred is the notification of the move
listeners, scheduled onto the system queue. -/
def Shape.set_position (s : Shape) (p : Position) (queue : List NotifyAction) :
    Shape × List NotifyAction :=
  ({ s with position := p }, Listeners.try_schedule_notify s.on_move ⟨s.id⟩ queue)

/-- `Shape::set_preferred_size` (lines 116-119). -/
def Shape.set_preferred_size (s : Shape) (size : Dimension)
    (queue : List NotifyAction) : Shape × List NotifyAction :=
  ({ s with preferred_size := size },
   Listeners.try_schedule_notify s.on_resize ⟨s.id⟩ queue)

/-! ## The container (`src/ui/container.rs`) -/

inductive Alignment where
  | left
  | center
  | right
deriving DecidableEq

/-- `Column` (`src/ui/container.rs`, lines 250-265); the stored resize
`listener_id` is used only by `Drop` and is omitted. -/
structure Column where
  child : Shape
  alignment : Alignment
deriving DecidableEq

/-- `Column::size` (lines 267-271): the child's preferred size (the
shape reference is live in this embedding, so the fallback to the
default size cannot trigger). -/
def Column.size (c : Column) : Dimension := c.child.preferred_size

/-- The first inner loop of `update_after_move`/`update_after_resize`
(lines 116-135): row height is the running maximum of the column
heights, and the widths of the Center and Right columns are summed. -/
def Container.rowStats (row : List Column) : ℚ × ℚ × ℚ :=
  row.foldl
    (fun acc col =>
      let size := col.child.preferred_size
      (if size.height > acc.1 then size.height else acc.1,
       match col.alignment with
       | .center => acc.2.1 + size.width
       | _ => acc.2.1,
       match col.alignment with
       | .right => acc.2.2 + size.width
       | _ => acc.2.2))
    (0, 0, 0)

/-- The second inner loop (lines 139-160): place each column at the x
accumulator of its alignment class and at `y + row_height - height` via
`set_position`, then advance `y` by `row_height` — in the source the
`y += row_height` statement sits inside this per-column loop.  Returns
the updated columns, the final `y` and the updated queue. -/
def Container.placeRow (row_height : ℚ) :
    List Column → ℚ → ℚ → ℚ → ℚ → List NotifyAction →
    List Column × ℚ × List NotifyAction
  | [], _, _, _, y, queue => ([], y, queue)
  | col :: rest, left_x, center_x, right_x, y, queue =>
    let w := col.child.preferred_size.width
    let h := col.child.preferred_size.height
    let x : ℚ × ℚ × ℚ × ℚ :=
      match col.alignment with
      | .left => (left_x, left_x + w, center_x, right_x)
      | .center => (center_x, left_x, center_x + w, right_x)
      | .right => (right_x, left_x, center_x, right_x + w)
    let set := col.child.set_position ⟨x.1, y + row_height - h⟩ queue
    let r := Container.placeRow row_height rest x.2.1 x.2.2.1 x.2.2.2
      (y + row_height) set.2
    ({ col with child := set.1 } :: r.1, r.2.1, r.2.2)

/-- The outer row loop (lines 115-161 and 176-222), parameterised by the
width used for the Center/Right accumulators: `update_after_move`
passes the container's preferred width, `update_after_resize` the
recombined size; this is the only difference between the two
duplicated source loops. -/
def Container.rowsLoop (px width : ℚ) :
    List (List Column) → ℚ → List NotifyAction →
    List (List Column) × ℚ × List NotifyAction
  | [], y, queue => ([], y, queue)
  | row :: rest, y, queue =>
    let s := Container.rowStats row
    let p := Container.placeRow s.1 row px (px + (width - s.2.1) / 2)
      (px + width - s.2.2) y queue
    let r := Container.rowsLoop px width rest p.2.1 p.2.2
    (p.1 :: r.1, r.2.1, r.2.2)

/-- `Container::update_after_move` (lines 109-163): lay the rows out
from the container shape's position, using its preferred width. -/
def Container.update_after_move (shape : Shape) (rows : List (List Column))
    (queue : List NotifyAction) : List (List Column) × List NotifyAction :=
  let r := Container.rowsLoop shape.position.x shape.preferred_size.width rows
    shape.position.y queue
  (r.1, r.2.2)

/-- The `new_size` computation of `Container::update_after_resize`
(lines 172-174). -/
def Container.newSize (rows : List (List Column)) : Dimension :=
  rows.foldl
    (fun acc row => acc.combine_vertical
      (row.foldl (fun a c => a.combine_horizontal (Column.size c))
        Dimension.default))
    Dimension.default

/-- `Container::update_after_resize` (lines 168-224): the same placement
loop with the Center/Right accumulators computed from the recombined
`new_size`, followed by `shape.set_preferred_size(new_size)`. -/
def Container.update_after_resize (shape : Shape) (rows : List (List Column))
    (queue : List NotifyAction) : Shape × List (List Column) × List NotifyAction :=
  let new_size := Container.newSize rows
  let r := Container.rowsLoop shape.position.x new_size.width rows
    shape.position.y queue
  let s := shape.set_preferred_size new_size r.2.2
  (s.1, r.1, s.2)

/-- The worked example: a container at the origin with preferred width
100, one row of three children with widths 10/20/10, equal heights 5,
aligned Left/Center/Right; the children start at (50, 50). -/
def cshapeC4 : Shape := ⟨0, ⟨0, 0⟩, ⟨100, 100⟩, [], []⟩

def rowsC4 : List (List Column) :=
  [[⟨⟨1, ⟨50, 50⟩, ⟨10, 5⟩, [], []⟩, .left⟩,
    ⟨⟨2, ⟨50, 50⟩, ⟨20, 5⟩, [], []⟩, .center⟩,
    ⟨⟨3, ⟨50, 50⟩, ⟨10, 5⟩, [], []⟩, .right⟩]]

/-- C4.  Evaluating the layout pass on the worked example: the container
sits at the origin with preferred width 100; one row holds children of
widths 10/20/10 and equal heights 5 aligned Left/Center/Right.  The x
coordinates come out as the claim says (0, centred 40, flush-right 90),
but because the source advances `y` by the row height inside the
per-column loop, the three columns of the single row land at the
baselines 0, 5 and 10 instead of one shared baseline — the claim's
expected placement (all three at y = 0) is refuted.  The duplicated
`update_after_resize` loop has the same per-column advance, with its
Center/Right math computed from the recombined size 40. -/
theorem C4_row_baseline_advances_per_column :
    ((Container.update_after_move cshapeC4 rowsC4 []).1.map fun row =>
        row.map fun c => c.child.position) = [[⟨0, 0⟩, ⟨40, 5⟩, ⟨90, 10⟩]]
    ∧ ((Container.update_after_move cshapeC4 rowsC4 []).1.map fun row =>
        row.map fun c => c.child.position) ≠ [[⟨0, 0⟩, ⟨40, 0⟩, ⟨90, 0⟩]]
    ∧ ((Container.update_after_resize cshapeC4 rowsC4 []).2.1.map fun row =>
        row.map fun c => c.child.position) = [[⟨0, 0⟩, ⟨10, 5⟩, ⟨30, 10⟩]]
    ∧ (Container.update_after_resize cshapeC4 rowsC4 []).1.preferred_size =
        ⟨40, 5⟩ := by
  refine ⟨?_, ?_, ?_, ?_⟩ <;>
    norm_num [Container.update_after_move, Container.update_after_resize,
      Container.newSize, Container.rowsLoop, Container.rowStats,
      Container.placeRow, Shape.set_position, Shape.set_preferred_size,
      Listeners.try_schedule_notify, Column.size, Dimension.combine_horizontal,
      Dimension.combine_vertical, Dimension.default, cshapeC4, rowsC4]

/-- C5 counterexample.  Running `update_after_move` on the worked
example does not leave the children's positions unchanged: the children
start at (50, 50) and come out of the call already repositioned — the
layout pass moves them synchronously rather than only scheduling a
deferred set-position action. -/
theorem C5_counterexample :
    ((Container.update_after_move cshapeC4 rowsC4 []).1.flatten.map fun c =>
        c.child.position) ≠
      rowsC4.flatten.map fun c => c.child.position := by
  norm_num [Container.update_after_move, Container.rowsLoop, Container.rowStats,
    Container.placeRow, Shape.set_position, Listeners.try_schedule_notify,
    cshapeC4, rowsC4]

lemma placeRow_queue (rh : ℚ) :
    ∀ (row : List Column) (lx cx rx y : ℚ) (q : List NotifyAction),
      Container.placeRow rh row lx cx rx y q =
        ((Container.placeRow rh row lx cx rx y []).1,
         (Container.placeRow rh row lx cx rx y []).2.1,
         q ++ (Container.placeRow rh row lx cx rx y []).2.2) := by
  intro row
  induction row with
  | nil => intro lx cx rx y q; simp [Container.placeRow]
  | cons col rest ih =>
    intro lx cx rx y q
    cases hal : col.alignment <;>
      simp only [Container.placeRow, Shape.set_position,
        Listeners.try_schedule_notify, hal, List.nil_append] <;>
      rw [ih, ih (q := List.map (fun l => ⟨l, ⟨col.child.id⟩⟩) col.child.on_move)] <;>
      simp [List.append_assoc]

lemma placeRow_queue_fst (rh : ℚ) (row : List Column) (lx cx rx y : ℚ)
    (q : List NotifyAction) :
    (Container.placeRow rh row lx cx rx y q).1 =
      (Container.placeRow rh row lx cx rx y []).1 := by
  rw [placeRow_queue]

lemma placeRow_queue_y (rh : ℚ) (row : List Column) (lx cx rx y : ℚ)
    (q : List NotifyAction) :
    (Container.placeRow rh row lx cx rx y q).2.1 =
      (Container.placeRow rh row lx cx rx y []).2.1 := by
  rw [placeRow_queue]

lemma placeRow_queue_snd (rh : ℚ) (row : List Column) (lx cx rx y : ℚ)
    (q : List NotifyAction) :
    (Container.placeRow rh row lx cx rx y q).2.2 =
      q ++ (Container.placeRow rh row lx cx rx y []).2.2 := by
  rw [placeRow_queue]

lemma rowsLoop_queue (px width : ℚ) :
    ∀ (rows : List (List Column)) (y : ℚ) (q : List NotifyAction),
      Container.rowsLoop px width rows y q =
        ((Container.rowsLoop px width rows y []).1,
         (Container.rowsLoop px width rows y []).2.1,
         q ++ (Container.rowsLoop px width rows y []).2.2) := by
  intro rows
  induction rows with
  | nil => intro y q; simp [Container.rowsLoop]
  | cons row rest ih =>
    intro y q
    simp only [Container.rowsLoop]
    rw [placeRow_queue_fst _ row _ _ _ _ q, placeRow_queue_y _ row _ _ _ _ q,
      placeRow_queue_snd _ row _ _ _ _ q]
    rw [ih]
    have hh := ih (Container.placeRow (Container.rowStats row).1 row px
        (px + (width - (Container.rowStats row).2.1) / 2)
        (px + width - (Container.rowStats row).2.2) y []).2.1
      ((Container.placeRow (Container.rowStats row).1 row px
        (px + (width - (Container.rowStats row).2.1) / 2)
        (px + width - (Container.rowStats row).2.2) y []).2.2)
    rw [hh]
    simp [List.append_assoc]

/-- C5 as amended.  The layout pass repositions children synchronously:
`Shape::set_position` updates the position field immediately, and what
it defers is the move notification — one `NotifyAction` per registered
move listener appended to the system queue, the listeners not being
invoked inline.  Consequently `update_after_move` and
`update_after_resize` compute the same geometry whatever the incoming
queue holds and only ever append notification actions to it; and on the
worked example the children emerge from the call already moved to their
layout positions. -/
theorem C5_layout_moves_children_synchronously :
    (∀ (s : Shape) (p : Position) (q : List NotifyAction),
        (s.set_position p q).1.position = p
        ∧ (s.set_position p q).2 = q ++ s.on_move.map fun l => ⟨l, ⟨s.id⟩⟩)
    ∧ (∀ (shape : Shape) (rows : List (List Column)) (q : List NotifyAction),
        Container.update_after_move shape rows q =
          ((Container.update_after_move shape rows []).1,
           q ++ (Container.update_after_move shape rows []).2))
    ∧ (∀ (shape : Shape) (rows : List (List Column)) (q : List NotifyAction),
        Container.update_after_resize shape rows q =
          ((Container.update_after_resize shape rows []).1,
           (Container.update_after_resize shape rows []).2.1,
           q ++ (Container.update_after_resize shape rows []).2.2))
    ∧ ((Container.update_after_move cshapeC4 rowsC4 []).1.flatten.map fun c =>
        c.child.position) = [⟨0, 0⟩, ⟨40, 5⟩, ⟨90, 10⟩] := by
  refine ⟨fun s p q => ⟨rfl, rfl⟩, ?_, ?_, ?_⟩
  · intro shape rows q
    simp only [Container.update_after_move]
    rw [rowsLoop_queue _ _ rows _ q]
  · intro shape rows q
    simp only [Container.update_after_resize, Shape.set_preferred_size,
      Listeners.try_schedule_notify]
    rw [rowsLoop_queue _ _ rows _ q]
    simp [List.append_assoc]
  · norm_num [Container.update_after_move, Container.rowsLoop,
      Container.rowStats, Container.placeRow, Shape.set_position,
      Listeners.try_schedule_notify, cshapeC4, rowsC4]

end War
